import Mathlib

/-!
Shallow embedding of `morse.go` from github.com/meinside/morse-go.

Go strings are modelled as Lean `String`; iterating a Go string with
`range` visits runes, which we model by `String.data : List Char`.
Go `(value, error)` pairs are modelled as pairs whose second component is
`Option String` (`none` = nil error, `some msg` = the formatted error
message built by `fmt.Errorf`).
-/

namespace Morse

/-- Go: `type Duration string`, the elementary morse signal unit. -/
abbrev Duration := String

/-- Go: `Dit Duration = "•"` (short). -/
def Dit : Duration := "•"

/-- Go: `Dah Duration = "−"` (long). -/
def Dah : Duration := "−"

/-- Go: `type Code string`, the morse transcription of one character. -/
abbrev Code := String

def A : Code := Dit ++ Dah
def B : Code := Dah ++ Dit ++ Dit ++ Dit
def C : Code := Dah ++ Dit ++ Dah ++ Dit
def D : Code := Dah ++ Dit ++ Dit
def E : Code := Dit
def F : Code := Dit ++ Dit ++ Dah ++ Dit
def G : Code := Dah ++ Dah ++ Dit
def H : Code := Dit ++ Dit ++ Dit ++ Dit
def I : Code := Dit ++ Dit
def J : Code := Dit ++ Dah ++ Dah ++ Dah
def K : Code := Dah ++ Dit ++ Dah
def L : Code := Dit ++ Dah ++ Dit ++ Dit
def M : Code := Dah ++ Dah
def N : Code := Dah ++ Dit
def O : Code := Dah ++ Dah ++ Dah
def P : Code := Dit ++ Dah ++ Dah ++ Dit
def Q : Code := Dah ++ Dah ++ Dit ++ Dah
def R : Code := Dit ++ Dah ++ Dit
def S : Code := Dit ++ Dit ++ Dit
def T : Code := Dah
def U : Code := Dit ++ Dit ++ Dah
def V : Code := Dit ++ Dit ++ Dit ++ Dah
def W : Code := Dit ++ Dah ++ Dah
def X : Code := Dah ++ Dit ++ Dit ++ Dah
def Y : Code := Dah ++ Dit ++ Dah ++ Dah
def Z : Code := Dah ++ Dah ++ Dit ++ Dit

def One : Code := Dit ++ Dah ++ Dah ++ Dah ++ Dah
def Two : Code := Dit ++ Dit ++ Dah ++ Dah ++ Dah
def Three : Code := Dit ++ Dit ++ Dit ++ Dah ++ Dah
def Four : Code := Dit ++ Dit ++ Dit ++ Dit ++ Dah
def Five : Code := Dit ++ Dit ++ Dit ++ Dit ++ Dit
def Six : Code := Dah ++ Dit ++ Dit ++ Dit ++ Dit
def Seven : Code := Dah ++ Dah ++ Dit ++ Dit ++ Dit
def Eight : Code := Dah ++ Dah ++ Dah ++ Dit ++ Dit
def Nine : Code := Dah ++ Dah ++ Dah ++ Dah ++ Dit
def Zero : Code := Dah ++ Dah ++ Dah ++ Dah ++ Dah

def Space : Code := " "
def None : Code := ""

/-- Go: `CodeFromDurations(durations ...Duration) Code` collects each
duration into a string slice and joins them with the empty separator. -/
def CodeFromDurations (durations : List Duration) : Code :=
  String.join (durations.map (fun d => (d : String)))

/-- Go: the `codesMap` literal built in `init()`, keyed by rune. -/
def codesMap (c : Char) : Option Code :=
  match c with
  | 'a' => some A
  | 'b' => some B
  | 'c' => some C
  | 'd' => some D
  | 'e' => some E
  | 'f' => some F
  | 'g' => some G
  | 'h' => some H
  | 'i' => some I
  | 'j' => some J
  | 'k' => some K
  | 'l' => some L
  | 'm' => some M
  | 'n' => some N
  | 'o' => some O
  | 'p' => some P
  | 'q' => some Q
  | 'r' => some R
  | 's' => some S
  | 't' => some T
  | 'u' => some U
  | 'v' => some V
  | 'w' => some W
  | 'x' => some X
  | 'y' => some Y
  | 'z' => some Z
  | '1' => some One
  | '2' => some Two
  | '3' => some Three
  | '4' => some Four
  | '5' => some Five
  | '6' => some Six
  | '7' => some Seven
  | '8' => some Eight
  | '9' => some Nine
  | '0' => some Zero
  | ' ' => some Space
  | _ => Option.none

/-- The key set of `codesMap`, in the order of the Go map literal. -/
def supportedChars : List Char :=
  ['a', 'b', 'c', 'd', 'e', 'f', 'g', 'h', 'i', 'j', 'k', 'l', 'm',
   'n', 'o', 'p', 'q', 'r', 's', 't', 'u', 'v', 'w', 'x', 'y', 'z',
   '1', '2', '3', '4', '5', '6', '7', '8', '9', '0', ' ']

/-- Go: `charsMap`, built in `init()` by iterating `codesMap` and inverting
each entry. Go map iteration order is unspecified; because `codesMap` is
injective every order yields the same inverse, so we scan the keys in the
order of the literal. -/
def charsMap (code : Code) : Option Char :=
  supportedChars.find? (fun ch => codesMap ch == some code)

/-- The message of `fmt.Errorf` with format `no matching character in the codes map: quoted %c`. -/
def charErrMsg (chr : Char) : String :=
  "no matching character in the codes map: \x27" ++ String.singleton chr ++ "\x27"

/-- Go: `charToCode(chr rune) (code Code, err error)`. -/
def charToCode (chr : Char) : Except String Code :=
  match codesMap chr with
  | some code => Except.ok code
  | Option.none => Except.error (charErrMsg chr)

/-- The message of `fmt.Errorf` with format `no matching code in the chars map: quoted %s`. -/
def codeErrMsg (code : Code) : String :=
  "no matching code in the chars map: \x27" ++ code ++ "\x27"

/-- Go: `codeToChar(code Code) (chr rune, err error)`. -/
def codeToChar (code : Code) : Except String Char :=
  match charsMap code with
  | some chr => Except.ok chr
  | Option.none => Except.error (codeErrMsg code)

/-- Per-rune model of Go `strings.ToLowerSpecial(unicode.TurkishCase, ·)`:
ASCII uppercase letters map to their lowercase forms except capital I
(U+0049), which maps to dotless ı (U+0131); capital İ (U+0130) maps to i.
Characters outside those ranges are kept unchanged, which is observationally
equivalent to the full Unicode `TurkishCase` table for every lookup in this
package: the remaining characters it would change are non-ASCII letters,
and both they and their lowercase images are absent from `codesMap`. -/
def toLowerTurkish (c : Char) : Char :=
  if 'A' ≤ c ∧ c ≤ 'Z' then
    if c = 'I' then 'ı' else Char.ofNat (c.toNat + 32)
  else if c = 'İ' then 'i'
  else c

/-- The rune sequence of `strings.ToLowerSpecial(unicode.TurkishCase, text)`. -/
def foldTurkish (text : String) : List Char :=
  text.data.map toLowerTurkish

/-- The loop of Go `Encodable`: return `(false, err)` at the first rune whose
lookup fails, `(true, nil)` when every rune resolves. -/
def encodableChars : List Char → Bool × Option String
  | [] => (true, Option.none)
  | c :: rest =>
    match charToCode c with
    | Except.error e => (false, some e)
    | Except.ok _ => encodableChars rest

/-- Go: `Encodable(text string) (encodable bool, err error)`. -/
def Encodable (text : String) : Bool × Option String :=
  encodableChars (foldTurkish text)

/-- The loop of Go `Decodable`. -/
def decodableCodes : List Code → Bool × Option String
  | [] => (true, Option.none)
  | code :: rest =>
    match codeToChar code with
    | Except.error e => (false, some e)
    | Except.ok _ => decodableCodes rest

/-- Go: `Decodable(codes []Code) (decodable bool, err error)`. -/
def Decodable (codes : List Code) : Bool × Option String :=
  decodableCodes codes

/-- Go: `Encode(text string) (codes []Code, err error)`. On a nil-error
`Encodable` check it collects, in input order, the codes of the folded runes
whose individual lookup succeeds (skipping failures); otherwise it returns
the empty slice and the wrapping error of
`fmt.Errorf` with format `quoted %s is not encodable: %s`. -/
def Encode (text : String) : List Code × Option String :=
  match (Encodable text).2 with
  | Option.none =>
      ((foldTurkish text).filterMap (fun chr => (charToCode chr).toOption), Option.none)
  | some e =>
      ([], some ("\x27" ++ text ++ "\x27 is not encodable: " ++ e))

/-- The `%v` rendering of a `[]Code` slice: elements space-separated
inside brackets. -/
def showCodes (codes : List Code) : String :=
  "[" ++ String.intercalate " " codes ++ "]"

/-- Go: `Decode(codes []Code) (decoded string, err error)`. On a nil-error
`Decodable` check it collects the characters of the codes whose individual
lookup succeeds (skipping failures); otherwise it returns the empty string
and the wrapping error of
`fmt.Errorf` with format `quoted %v are not decodable: %s`. -/
def Decode (codes : List Code) : String × Option String :=
  match (Decodable codes).2 with
  | Option.none =>
      (String.mk (codes.filterMap (fun code => (codeToChar code).toOption)), Option.none)
  | some e =>
      ("", some ("\x27" ++ showCodes codes ++ "\x27 are not decodable: " ++ e))

/-- RE2 character class `\s`, i.e. `[\t\n\f\r ]`, used by both regexes
compiled in `init()`. -/
def isSpaceRE (c : Char) : Bool :=
  c = '\t' || c = '\n' || c = '\x0c' || c = '\r' || c = ' '

/-- The alphanumeric ranges `a-zA-Z0-9` of the regex `[^a-zA-Z0-9\s]+`. -/
def isAlnumRE (c : Char) : Bool :=
  ('a' ≤ c && c ≤ 'z') || ('A' ≤ c && c ≤ 'Z') || ('0' ≤ c && c ≤ '9')

/-- A rune survives `regexToEscape.ReplaceAllString(text, "")` iff it is
not matched by `[^a-zA-Z0-9\s]`, i.e. iff it is alphanumeric or `\s`. -/
def keepChar (c : Char) : Bool :=
  isAlnumRE c || isSpaceRE c

/-- Worker for `regexRedundantSpaces.ReplaceAllString(·, " ")` with pattern
`\s{2,}`: each maximal run of two or more `\s` runes is replaced by one
space; a lone `\s` rune is left as it is. The Bool flag records that the
head sits inside a whitespace run whose replacement space has already been
emitted, so the remaining run characters are dropped. -/
def rrsAux : Bool → List Char → List Char
  | _, [] => []
  | true, c :: rest =>
    if isSpaceRE c then rrsAux true rest
    else c :: rrsAux false rest
  | false, c :: rest =>
    if isSpaceRE c then
      match rest with
      | [] => [c]
      | c2 :: _ =>
        if isSpaceRE c2 then ' ' :: rrsAux true rest
        else c :: rrsAux false rest
    else c :: rrsAux false rest

/-- Application of `regexRedundantSpaces.ReplaceAllString(·, " ")` to a rune list. -/
def replaceRedundantSpaces (l : List Char) : List Char :=
  rrsAux false l

/-- Go: `Escape(text string) string`, composing the two regex rewrites. -/
def Escape (text : String) : String :=
  String.mk (replaceRedundantSpaces (text.data.filter keepChar))

/-- Modelled from the spec: the alternative per-rune folding the spec
contrasts with the Turkish one — "default locale-independent lowercasing"
(Go `strings.ToLower`) on the ASCII range, where the two foldings are
compared; outside that range the character is kept unchanged. -/
def asciiToLower (c : Char) : Char :=
  if 'A' ≤ c ∧ c ≤ 'Z' then Char.ofNat (c.toNat + 32) else c

/-- The rune sequence of the alternative folding of `text`. -/
def foldAscii (text : String) : List Char :=
  text.data.map asciiToLower

/-- Variant of `Encodable` with the alternative folding of the spec substituted. -/
def EncodableAscii (text : String) : Bool × Option String :=
  encodableChars (foldAscii text)

/-- Variant of `Encode` with the alternative folding of the spec substituted. -/
def EncodeAscii (text : String) : List Code × Option String :=
  match (EncodableAscii text).2 with
  | Option.none =>
      ((foldAscii text).filterMap (fun chr => (charToCode chr).toOption), Option.none)
  | some e =>
      ([], some ("\x27" ++ text ++ "\x27 is not encodable: " ++ e))

/-- The character class of the claims about supported characters:
lowercase Latin letter, digit, or space. -/
def isSupportedChar (c : Char) : Bool :=
  ('a' ≤ c && c ≤ 'z') || ('0' ≤ c && c ≤ '9') || c = ' '

/-! ### Helper lemmas -/

theorem char_prop_of_toNat_lt {P : Char → Prop} {bound : Nat}
    (hall : ∀ n, n < bound → P (Char.ofNat n)) (c : Char) (hc : c.toNat < bound) :
    P c := by
  have h := hall c.toNat hc
  rwa [Char.ofNat_toNat] at h

theorem keepChar_toNat_lt {c : Char} (h : keepChar c = true) : c.toNat < 128 := by
  simp only [keepChar, isAlnumRE, isSpaceRE, Bool.or_eq_true, Bool.and_eq_true,
    decide_eq_true_eq] at h
  obtain ((⟨h1, h2⟩ | ⟨h1, h2⟩) | ⟨h1, h2⟩) | ((((h | h) | h) | h) | h) := h <;>
    first
      | (have hb : c.toNat ≤ 122 := h2; omega)
      | (have hb : c.toNat ≤ 90 := h2; omega)
      | (have hb : c.toNat ≤ 57 := h2; omega)
      | (rw [h]; decide)

theorem isSupportedChar_toNat_lt {c : Char} (h : isSupportedChar c = true) :
    c.toNat < 128 := by
  simp only [isSupportedChar, Bool.or_eq_true, Bool.and_eq_true,
    decide_eq_true_eq] at h
  obtain (⟨h1, h2⟩ | ⟨h1, h2⟩) | h := h <;>
    first
      | (have hb : c.toNat ≤ 122 := h2; omega)
      | (have hb : c.toNat ≤ 57 := h2; omega)
      | (rw [h]; decide)

theorem mem_supportedChars {c : Char} (h : isSupportedChar c = true) :
    c ∈ supportedChars := by
  refine char_prop_of_toNat_lt (P := fun c => isSupportedChar c = true → c ∈ supportedChars)
    ?_ c (isSupportedChar_toNat_lt h) h
  decide

theorem codesMap_isSome_of_keepChar {c : Char} (h : keepChar c = true) (hI : c ≠ 'I')
    (hsp : isSpaceRE c = true → c = ' ') : (codesMap (toLowerTurkish c)).isSome := by
  refine char_prop_of_toNat_lt
    (P := fun c => keepChar c = true → c ≠ 'I' → (isSpaceRE c = true → c = ' ') →
      (codesMap (toLowerTurkish c)).isSome)
    ?_ c (keepChar_toNat_lt h) h hI hsp
  decide

theorem toLowerTurkish_eq_asciiToLower {c : Char} (h : c.toNat < 128) (hI : c ≠ 'I') :
    toLowerTurkish c = asciiToLower c := by
  refine char_prop_of_toNat_lt
    (P := fun c => c ≠ 'I' → toLowerTurkish c = asciiToLower c) ?_ c h hI
  decide

theorem foldl_append_data (l : List String) (s : String) :
    (l.foldl (fun a b => a ++ b) s).data = s.data ++ (l.map String.data).flatten := by
  induction l generalizing s with
  | nil => simp
  | cons a t ih =>
    simp only [List.foldl_cons, ih, List.map_cons, List.flatten_cons]
    simp [String.data_append]

theorem join_data (l : List String) :
    (String.join l).data = (l.map String.data).flatten := by
  simp [String.join, foldl_append_data]

end Morse

namespace Morse

/-- C5: when the upfront `Encodable` check fails, `Encode` returns the empty
transcript together with the error wrapping the lookup failure and the
original text; symmetrically, when `Decodable` fails, `Decode` returns the
empty string together with the error wrapping the invalid-code detail. -/
theorem claim5_error_propagation (text : String) (codes : List Code) (e₁ e₂ : String)
    (h₁ : (Encodable text).2 = some e₁) (h₂ : (Decodable codes).2 = some e₂) :
    Encode text = ([], some ("\x27" ++ text ++ "\x27 is not encodable: " ++ e₁)) ∧
    Decode codes = ("", some ("\x27" ++ showCodes codes ++ "\x27 are not decodable: " ++ e₂)) := by
  constructor
  · unfold Encode
    rw [h₁]
  · unfold Decode
    rw [h₂]

/-- Witness for C5 at the unencodable text `"!"` and the undecodable
transcript `["x"]`. -/
theorem claim5_error_propagation_witness :
    Encode ("!") = ([], some ("\x27" ++ "!" ++ "\x27 is not encodable: " ++ charErrMsg '!')) ∧
    Decode [("x")] =
      ("", some ("\x27" ++ showCodes [("x")] ++ "\x27 are not decodable: " ++ codeErrMsg ("x"))) :=
  claim5_error_propagation ("!") [("x")] (charErrMsg '!') (codeErrMsg ("x"))
    (by decide) (by decide)

/-- C8: `Encode "sos"` yields, without error, the transcript
`[S, O, S]`, where `S` is three short units and `O` three long units; and
`Decode [S, Space, O, Space, S]` yields `"s o s"` without error. -/
theorem claim8_sos_scenarios :
    Encode ("sos") = ([S, O, S], Option.none) ∧
    S = CodeFromDurations [Dit, Dit, Dit] ∧
    O = CodeFromDurations [Dah, Dah, Dah] ∧
    Decode [S, Space, O, Space, S] = ("s o s", Option.none) := by
  decide

/-- C9: `CodeFromDurations` concatenates the given units with no separator
and no validation: on `[Dit, Dit, Dit]` it equals the code `S` (three short
glyphs), on the empty sequence it yields the empty code `None`, and in
general its character data is exactly the flattening of the argument
character data lists. -/
theorem claim9_code_from_durations :
    CodeFromDurations [Dit, Dit, Dit] = S ∧
    CodeFromDurations [] = None ∧
    ∀ durations : List Duration,
      (CodeFromDurations durations).data =
        (durations.map (fun d => (d : String).data)).flatten := by
  refine ⟨by decide, by decide, ?_⟩
  intro durations
  simp [CodeFromDurations, join_data]

/-- C10: every public core operation succeeds on empty input: `Encodable ""`
is `(true, nil)`, `Encode ""` is the empty transcript with nil error,
`Decodable []` is `(true, nil)`, and `Decode []` is `""` with nil error. -/
theorem claim10_empty_inputs :
    Encodable ("") = (true, Option.none) ∧
    Encode ("") = ([], Option.none) ∧
    Decodable [] = (true, Option.none) ∧
    Decode [] = ("", Option.none) := by
  decide

/-- Combined per-character table facts: on every supported character the
Turkish folding is the identity and the two lookup tables invert each
other. -/
def suppOK (c : Char) : Bool :=
  (toLowerTurkish c == c) &&
    match codesMap c with
    | some code => charsMap code == some c
    | Option.none => false

theorem suppOK_all : supportedChars.all suppOK = true := by decide

theorem suppOK_of_mem {c : Char} (h : c ∈ supportedChars) : suppOK c = true :=
  List.all_eq_true.mp suppOK_all c h

theorem suppOK_spec {c : Char} (h : suppOK c = true) :
    toLowerTurkish c = c ∧ ∃ code, codesMap c = some code ∧ charsMap code = some c := by
  unfold suppOK at h
  rcases hm : codesMap c with _ | code <;> rw [hm] at h <;>
    simp only [Bool.and_eq_true, beq_iff_eq] at h
  · exact absurd h.2 (by simp)
  · exact ⟨h.1, code, rfl, h.2⟩

/-- The first rune of `l` whose lookup fails, if any, determines
`encodableChars l`. -/
theorem encodableChars_eq_find (l : List Char) :
    match l.find? (fun c => (codesMap c).isNone) with
    | some c => encodableChars l = (false, some (charErrMsg c))
    | Option.none => encodableChars l = (true, Option.none) := by
  induction l with
  | nil => simp [encodableChars]
  | cons c rest ih =>
    rcases hm : codesMap c with _ | code
    · simp [List.find?_cons, hm, encodableChars, charToCode]
    · have hfind : (c :: rest).find? (fun c => (codesMap c).isNone) =
          rest.find? (fun c => (codesMap c).isNone) := by
        simp [List.find?_cons, hm]
      have henc : encodableChars (c :: rest) = encodableChars rest := by
        simp [encodableChars, charToCode, hm]
      rw [hfind, henc]
      exact ih

theorem encodableChars_all_some (l : List Char) (h : ∀ c ∈ l, (codesMap c).isSome) :
    encodableChars l = (true, Option.none) := by
  induction l with
  | nil => rfl
  | cons c rest ih =>
    rcases hm : codesMap c with _ | code
    · exact absurd (h c (by simp)) (by simp [hm])
    · simp only [encodableChars, charToCode, hm]
      exact ih fun x hx => h x (by simp [hx])

end Morse

namespace Morse

/-- The first rune of the folded text whose lookup fails, if any. -/
def firstUnencodable (text : String) : Option Char :=
  (foldTurkish text).find? (fun c => (codesMap c).isNone)

/-- C6: `Encodable` folds the text and looks every resulting rune up: it
returns `(false, e)` with `e` the lookup error of the first rune that fails,
and `(true, nil)` when every rune resolves; in particular both
`Encodable "é"` and `Encodable "Hello!"` return false with the lookup
error of the offending rune. -/
theorem claim6_encodable_spec :
    (∀ text c, firstUnencodable text = some c →
      Encodable text = (false, some (charErrMsg c))) ∧
    (∀ text, firstUnencodable text = Option.none →
      Encodable text = (true, Option.none)) ∧
    Encodable ("é") = (false, some (charErrMsg 'é')) ∧
    Encodable ("Hello!") = (false, some (charErrMsg '!')) := by
  refine ⟨?_, ?_, by decide, by decide⟩
  · intro text c h
    have hf := encodableChars_eq_find (foldTurkish text)
    unfold firstUnencodable at h
    rw [h] at hf
    exact hf
  · intro text h
    have hf := encodableChars_eq_find (foldTurkish text)
    unfold firstUnencodable at h
    rw [h] at hf
    exact hf

/-- Witness for C6 at the fully encodable text `"ab"`. -/
theorem claim6_encodable_spec_witness : Encodable ("ab") = (true, Option.none) :=
  claim6_encodable_spec.2.1 ("ab") (by decide)

/-- C4: for every supported character (lowercase Latin letter, digit, or
space) the code lookup succeeds and the reverse lookup returns the
character again, and the character-to-code mapping is injective on
supported characters. -/
theorem claim4_bijection :
    (∀ c : Char, isSupportedChar c = true →
      ∃ code, charToCode c = Except.ok code ∧ codeToChar code = Except.ok c) ∧
    (∀ c₁ c₂ : Char, isSupportedChar c₁ = true → isSupportedChar c₂ = true →
      codesMap c₁ = codesMap c₂ → c₁ = c₂) := by
  have key : ∀ c : Char, isSupportedChar c = true →
      ∃ code, codesMap c = some code ∧ charsMap code = some c := by
    intro c hc
    exact (suppOK_spec (suppOK_of_mem (mem_supportedChars hc))).2
  constructor
  · intro c hc
    obtain ⟨code, hcode, hchar⟩ := key c hc
    exact ⟨code, by simp [charToCode, hcode], by simp [codeToChar, hchar]⟩
  · intro c₁ c₂ h₁ h₂ heq
    obtain ⟨code₁, hcode₁, hchar₁⟩ := key c₁ h₁
    obtain ⟨code₂, hcode₂, hchar₂⟩ := key c₂ h₂
    rw [heq, hcode₂] at hcode₁
    obtain rfl : code₂ = code₁ := by injection hcode₁
    rw [hchar₂] at hchar₁
    injection hchar₁ with hcc
    exact hcc.symm

/-- Witness for C4 at the supported character `s`. -/
theorem claim4_bijection_witness :
    ∃ code, charToCode 's' = Except.ok code ∧ codeToChar code = Except.ok 's' :=
  claim4_bijection.1 's' (by decide)

/-- Encoding then decoding a list of supported runes validates on both
sides and returns the original runes. -/
theorem roundtrip_chars (l : List Char) (h : ∀ c ∈ l, c ∈ supportedChars) :
    encodableChars l = (true, Option.none) ∧
    decodableCodes (l.filterMap (fun c => (charToCode c).toOption)) = (true, Option.none) ∧
    (l.filterMap (fun c => (charToCode c).toOption)).filterMap
      (fun code => (codeToChar code).toOption) = l := by
  induction l with
  | nil => exact ⟨rfl, rfl, rfl⟩
  | cons c rest ih =>
    obtain ⟨-, code, hcode, hchar⟩ := suppOK_spec (suppOK_of_mem (h c (by simp)))
    obtain ⟨ih1, ih2, ih3⟩ := ih fun x hx => h x (by simp [hx])
    have hct : charToCode c = Except.ok code := by simp [charToCode, hcode]
    have hcc : codeToChar code = Except.ok c := by simp [codeToChar, hchar]
    have hfc : (charToCode c).toOption = some code := by rw [hct]; rfl
    have hgc : (codeToChar code).toOption = some c := by rw [hcc]; rfl
    refine ⟨?_, ?_, ?_⟩
    · simp only [encodableChars, hct]
      exact ih1
    · simp only [List.filterMap_cons, hfc, decodableCodes, hcc]
      exact ih2
    · simp only [List.filterMap_cons, hfc, hgc]
      rw [ih3]

/-- No two adjacent spaces, as in the phrase
single interior spaces of the round-trip claim. -/
def noTwoSpaces : List Char → Bool
  | [] => true
  | [_] => true
  | a :: b :: rest => !(a = ' ' && b = ' ') && noTwoSpaces (b :: rest)

/-- Input class of C1: only lowercase Latin letters, digits and spaces, with
every space single and interior. -/
def roundtripText (s : String) : Bool :=
  s.data.all isSupportedChar && noTwoSpaces s.data &&
    (match s.data with
     | [] => true
     | c :: _ => !(c = ' ')) &&
    (match s.data.getLast? with
     | some c => !(c = ' ')
     | Option.none => true)

/-- C1: for every text of lowercase Latin letters, digits and single
interior spaces, `Encode` succeeds without error and `Decode` of the
resulting transcript returns exactly the text, again without error. -/
theorem claim1_roundtrip (text : String) (h : roundtripText text = true) :
    (Encode text).2 = Option.none ∧ Decode (Encode text).1 = (text, Option.none) := by
  simp only [roundtripText, Bool.and_eq_true] at h
  have hall : ∀ c ∈ text.data, isSupportedChar c = true :=
    List.all_eq_true.mp h.1.1.1
  have hmem : ∀ c ∈ text.data, c ∈ supportedChars := fun c hc =>
    mem_supportedChars (hall c hc)
  have hfold : foldTurkish text = text.data := by
    have hid : ∀ c ∈ text.data, toLowerTurkish c = c := fun c hc =>
      (suppOK_spec (suppOK_of_mem (hmem c hc))).1
    unfold foldTurkish
    rw [List.map_congr_left hid]
    exact List.map_id text.data
  obtain ⟨h1, h2, h3⟩ := roundtrip_chars text.data hmem
  have hEncodable : Encodable text = (true, Option.none) := by
    unfold Encodable
    rw [hfold]
    exact h1
  have hEnc : Encode text =
      (text.data.filterMap (fun c => (charToCode c).toOption), Option.none) := by
    unfold Encode
    rw [hEncodable, hfold]
  rw [hEnc]
  refine ⟨rfl, ?_⟩
  have hDec : Decode (text.data.filterMap fun c => (charToCode c).toOption) =
      (String.mk ((text.data.filterMap fun c => (charToCode c).toOption).filterMap
        fun code => (codeToChar code).toOption), Option.none) := by
    unfold Decode
    rw [show Decodable (text.data.filterMap fun c => (charToCode c).toOption) =
      (true, Option.none) from h2]
  rw [hDec, h3]

/-- Witness for C1 at the text `"sos 123"`. -/
theorem claim1_roundtrip_witness :
    (Encode ("sos 123")).2 = Option.none ∧
    Decode (Encode ("sos 123")).1 = ("sos 123", Option.none) :=
  claim1_roundtrip ("sos 123") (by decide)

/-- C2 fails on the code: `Escape "aI"` keeps the capital I, which the
Turkish folding sends to dotless ı, a character outside the alphabet, so the
escape of `"aI"` is not encodable even though it contains the encodable
character `a`; and the purely non-alphanumeric `"\t"` escapes to `"\t"`,
which is neither empty nor made of spaces. -/
theorem claim2_counterexample :
    ((∃ c ∈ (Escape ("aI")).data, (Encodable (String.singleton c)).1 = true) ∧
      (Encodable (Escape ("aI"))).1 = false) ∧
    ((∀ c ∈ ("\t" : String).data, isAlnumRE c = false) ∧
      Escape ("\t") ≠ "" ∧ ¬(∀ c ∈ (Escape ("\t")).data, c = ' ')) := by
  decide

/-- C3 fails on the code: on the ASCII input `"I"` the Turkish folding used
by `Encodable`/`Encode` gives dotless ı, whose lookup fails, while default
ASCII lowercasing gives i, whose lookup succeeds, so the two foldings give
different results. -/
theorem claim3_counterexample :
    (Encodable ("I")).1 = false ∧
    (EncodableAscii ("I")).1 = true ∧
    Encodable ("I") ≠ EncodableAscii ("I") ∧
    Encode ("I") ≠ EncodeAscii ("I") := by
  decide

/-- C3 amended: on ASCII strings without a capital I, the Turkish folding
and default ASCII lowercasing give identical `Encodable` and `Encode`
results. -/
theorem claim3_folding_equiv_amended (s : String)
    (h : ∀ c ∈ s.data, c.toNat < 128 ∧ c ≠ 'I') :
    Encodable s = EncodableAscii s ∧ Encode s = EncodeAscii s := by
  have hfold : foldTurkish s = foldAscii s := by
    unfold foldTurkish foldAscii
    exact List.map_congr_left fun c hc =>
      toLowerTurkish_eq_asciiToLower (h c hc).1 (h c hc).2
  have hEnc : Encodable s = EncodableAscii s := by
    unfold Encodable EncodableAscii
    rw [hfold]
  refine ⟨hEnc, ?_⟩
  unfold Encode EncodeAscii
  rw [hEnc, hfold]

/-- Witness for amended C3 at the ASCII text `"Hi 5"`. -/
theorem claim3_folding_equiv_amended_witness :
    Encodable ("Hi 5") = EncodableAscii ("Hi 5") ∧
    Encode ("Hi 5") = EncodeAscii ("Hi 5") :=
  claim3_folding_equiv_amended ("Hi 5") (by decide)

end Morse

namespace Morse

/-- No two adjacent `\s` runes, the shape of `replaceRedundantSpaces`
output. -/
def noTwoWS : List Char → Bool
  | [] => true
  | [_] => true
  | a :: b :: rest => !(isSpaceRE a && isSpaceRE b) && noTwoWS (b :: rest)

theorem rrsAux_true_head :
    ∀ (l : List Char) (x : Char) (xs : List Char),
      rrsAux true l = x :: xs → isSpaceRE x = false := by
  intro l
  induction l with
  | nil =>
    intro x xs h
    simp [rrsAux] at h
  | cons c rest ih =>
    intro x xs h
    by_cases hc : isSpaceRE c
    · rw [show rrsAux true (c :: rest) = rrsAux true rest from by simp [rrsAux, hc]] at h
      exact ih x xs h
    · rw [show rrsAux true (c :: rest) = c :: rrsAux false rest from by simp [rrsAux, hc]] at h
      injection h with h1 h2
      subst h1
      simpa using hc

theorem noTwoWS_cons_of_false {c : Char} {l : List Char} (hc : isSpaceRE c = false)
    (hl : noTwoWS l = true) : noTwoWS (c :: l) = true := by
  cases l <;> simp [noTwoWS, hc, hl]

theorem noTwoWS_tail {c : Char} {l : List Char} (h : noTwoWS (c :: l) = true) :
    noTwoWS l = true := by
  cases l with
  | nil => rfl
  | cons b t =>
    simp only [noTwoWS, Bool.and_eq_true] at h
    exact h.2

theorem noTwoWS_rrsAux : ∀ (b : Bool) (l : List Char), noTwoWS (rrsAux b l) = true := by
  intro b l
  induction b, l using rrsAux.induct with
  | case1 b => cases b <;> rfl
  | case2 c rest hc ih =>
    rw [show rrsAux true (c :: rest) = rrsAux true rest from by simp [rrsAux, hc]]
    exact ih
  | case3 c rest hc ih =>
    rw [show rrsAux true (c :: rest) = c :: rrsAux false rest from by simp [rrsAux, hc]]
    exact noTwoWS_cons_of_false (by simpa using hc) ih
  | case4 c hc =>
    rw [show rrsAux false [c] = [c] from by simp [rrsAux, hc]]
    rfl
  | case5 c hc c2 tail hc2 ih =>
    rw [show rrsAux false (c :: c2 :: tail) = ' ' :: rrsAux true (c2 :: tail) from by
      simp [rrsAux, hc, hc2]]
    rcases hr : rrsAux true (c2 :: tail) with _ | ⟨x, xs⟩
    · rfl
    · have hx := rrsAux_true_head _ _ _ hr
      rw [hr] at ih
      simp [noTwoWS, hx, ih]
  | case6 c hc c2 tail hc2 ih =>
    rw [show rrsAux false (c :: c2 :: tail) = c :: rrsAux false (c2 :: tail) from by
      simp [rrsAux, hc, hc2]]
    have hstep : rrsAux false (c2 :: tail) = c2 :: rrsAux false tail := by
      simp [rrsAux, hc2]
    rw [hstep]
    rw [hstep] at ih
    simp only [noTwoWS, Bool.and_eq_true, Bool.not_eq_true']
    refine ⟨?_, ih⟩
    simp [Bool.not_eq_true] at hc2
    simp [hc2]
  | case7 c rest hc ih =>
    rw [show rrsAux false (c :: rest) = c :: rrsAux false rest from by simp [rrsAux, hc]]
    exact noTwoWS_cons_of_false (by simpa using hc) ih

theorem rrsAux_false_of_noTwoWS : ∀ l : List Char, noTwoWS l = true → rrsAux false l = l := by
  intro l
  induction l with
  | nil => intro _; rfl
  | cons c rest ih =>
    intro h
    by_cases hc : isSpaceRE c
    · cases rest with
      | nil => simp [rrsAux, hc]
      | cons c2 tail =>
        have h2 : isSpaceRE c2 = false := by
          simp only [noTwoWS, Bool.and_eq_true, Bool.not_eq_true',
            Bool.and_eq_false_iff] at h
          rcases h.1 with h1 | h1
          · rw [h1] at hc
            exact (Bool.false_ne_true hc).elim
          · exact h1
        rw [show rrsAux false (c :: c2 :: tail) = c :: rrsAux false (c2 :: tail) from by
          simp [rrsAux, hc, h2]]
        rw [ih (noTwoWS_tail h)]
    · rw [show rrsAux false (c :: rest) = c :: rrsAux false rest from by simp [rrsAux, hc]]
      rw [ih (noTwoWS_tail h)]

theorem rrsAux_mem :
    ∀ (b : Bool) (l : List Char) (x : Char), x ∈ rrsAux b l → x ∈ l ∨ x = ' ' := by
  intro b l
  induction b, l using rrsAux.induct with
  | case1 b =>
    intro x hx
    cases b <;> simp [rrsAux] at hx
  | case2 c rest hc ih =>
    intro x hx
    rw [show rrsAux true (c :: rest) = rrsAux true rest from by simp [rrsAux, hc]] at hx
    rcases ih x hx with h | h
    · exact Or.inl (List.mem_cons_of_mem _ h)
    · exact Or.inr h
  | case3 c rest hc ih =>
    intro x hx
    rw [show rrsAux true (c :: rest) = c :: rrsAux false rest from by simp [rrsAux, hc]] at hx
    rcases List.mem_cons.mp hx with rfl | hx
    · exact Or.inl (List.mem_cons_self _ _)
    · rcases ih x hx with h | h
      · exact Or.inl (List.mem_cons_of_mem _ h)
      · exact Or.inr h
  | case4 c hc =>
    intro x hx
    rw [show rrsAux false [c] = [c] from by simp [rrsAux, hc]] at hx
    exact Or.inl hx
  | case5 c hc c2 tail hc2 ih =>
    intro x hx
    rw [show rrsAux false (c :: c2 :: tail) = ' ' :: rrsAux true (c2 :: tail) from by
      simp [rrsAux, hc, hc2]] at hx
    rcases List.mem_cons.mp hx with rfl | hx
    · exact Or.inr rfl
    · rcases ih x hx with h | h
      · exact Or.inl (List.mem_cons_of_mem _ h)
      · exact Or.inr h
  | case6 c hc c2 tail hc2 ih =>
    intro x hx
    rw [show rrsAux false (c :: c2 :: tail) = c :: rrsAux false (c2 :: tail) from by
      simp [rrsAux, hc, hc2]] at hx
    rcases List.mem_cons.mp hx with rfl | hx
    · exact Or.inl (List.mem_cons_self _ _)
    · rcases ih x hx with h | h
      · exact Or.inl (List.mem_cons_of_mem _ h)
      · exact Or.inr h
  | case7 c rest hc ih =>
    intro x hx
    rw [show rrsAux false (c :: rest) = c :: rrsAux false rest from by simp [rrsAux, hc]] at hx
    rcases List.mem_cons.mp hx with rfl | hx
    · exact Or.inl (List.mem_cons_self _ _)
    · rcases ih x hx with h | h
      · exact Or.inl (List.mem_cons_of_mem _ h)
      · exact Or.inr h

theorem keepChar_of_mem_escape {s : String} {c : Char} (h : c ∈ (Escape s).data) :
    keepChar c = true := by
  have h2 : c ∈ rrsAux false (s.data.filter keepChar) := h
  rcases rrsAux_mem false _ c h2 with hm | rfl
  · exact (List.mem_filter.mp hm).2
  · decide

/-- C7: `Escape` is idempotent: escaping an already escaped string changes
nothing. -/
theorem claim7_escape_idempotent (s : String) : Escape (Escape s) = Escape s := by
  have hkeep : ∀ c ∈ (Escape s).data, keepChar c = true := fun c hc =>
    keepChar_of_mem_escape hc
  show String.mk (rrsAux false ((Escape s).data.filter keepChar)) = Escape s
  rw [List.filter_eq_self.mpr hkeep]
  show String.mk (rrsAux false (rrsAux false (s.data.filter keepChar))) = Escape s
  rw [rrsAux_false_of_noTwoWS _ (noTwoWS_rrsAux false (s.data.filter keepChar))]
  rfl

/-- C2 amended: for every string whose escape contains at least one
encodable character, no capital I, and no whitespace other than the plain
space, the escape is encodable; and every purely non-alphanumeric string
escapes to the empty string or to a string consisting only of whitespace
characters. (The original claim fails: a surviving capital I folds to
dotless ı and defeats `Encodable`, and a lone escaped tab is whitespace
but not a space.) -/
theorem claim2_escape_safety_amended (s : String) :
    ((∃ c ∈ (Escape s).data, (Encodable (String.singleton c)).1 = true) →
      (∀ c ∈ (Escape s).data, c ≠ 'I') →
      (∀ c ∈ (Escape s).data, isSpaceRE c = true → c = ' ') →
      (Encodable (Escape s)).1 = true) ∧
    ((∀ c ∈ s.data, isAlnumRE c = false) →
      Escape s = "" ∨ ∀ c ∈ (Escape s).data, isSpaceRE c = true) := by
  constructor
  · intro _ hI hws
    have hsome : ∀ d ∈ foldTurkish (Escape s), (codesMap d).isSome := by
      intro d hd
      obtain ⟨c, hc, rfl⟩ := List.mem_map.mp hd
      exact codesMap_isSome_of_keepChar (keepChar_of_mem_escape hc) (hI c hc) (hws c hc)
    have henc := encodableChars_all_some _ hsome
    unfold Encodable
    rw [henc]
  · intro halnum
    right
    intro c hc
    have h2 : c ∈ rrsAux false (s.data.filter keepChar) := hc
    rcases rrsAux_mem false _ c h2 with hm | rfl
    · obtain ⟨hmem, hkeep⟩ := List.mem_filter.mp hm
      have h1 : isAlnumRE c = false := halnum c hmem
      simpa [keepChar, h1] using hkeep
    · decide

/-- Witness for amended C2 at `"a b!"` (encodable after escaping) and
`"?\t?"` (purely non-alphanumeric). -/
theorem claim2_escape_safety_amended_witness :
    (Encodable (Escape ("a b!"))).1 = true ∧
    (Escape ("?\t?") = "" ∨ ∀ c ∈ (Escape ("?\t?")).data, isSpaceRE c = true) :=
  ⟨(claim2_escape_safety_amended ("a b!")).1 (by decide) (by decide) (by decide),
   (claim2_escape_safety_amended ("?\t?")).2 (by decide)⟩

end Morse
